import Mathlib

/-!
Verification of the nexsock concurrent load-test harness
(`test-concurrent.py`): the `run_command` invoker, the batching scheduler
`run_concurrent_tests`, and its result-analysis section.

Modelling conventions:
* Wall-clock measurements and subprocess behaviour are inputs to the model:
  an environment `env : Nat → ProcOutcome` gives, for each `session_id`, what
  the external `nexsock status ferric_api` subprocess did for that invocation.
* Python floats are modelled as rationals (`ℚ`).
* Python dictionaries built by `run_command` are modelled by the
  `InvocationResult` structure.
* A raised exception that escapes a function is modelled by `Option`
  (`none` = the function faults instead of returning).
-/

/-- What the external subprocess did for one invocation: either
`create_subprocess_shell` / `communicate` completed, yielding a return code
and captured stdout/stderr bytes (decoded to strings) after `duration`
seconds of wall-clock time, or an exception `e` was raised during
launch/communication, caught at `duration` seconds. -/
inductive ProcOutcome where
  | completed (returncode : Int) (stdout stderr : String) (duration : ℚ)
  | exn (msg : String) (duration : ℚ)
deriving DecidableEq

/-- The result dictionary built by `run_command`
(`test-concurrent.py` lines 23-29 and 32-38). -/
structure InvocationResult where
  session_id : Nat
  success : Bool
  duration : ℚ
  output : Option String
  error : Option String
deriving DecidableEq

/-- Embedding of `run_command` (`test-concurrent.py` lines 8-38).
On completion: `success` is `returncode == 0`; `output` is the decoded stdout
if the bytes are non-empty (Python truthiness of `bytes`), else `None`;
`error` likewise holds the decoded stderr iff it is non-empty.
On an exception: `success = False`, `output = None`, `error = str(e)`,
with the duration measured up to the handler. -/
def run_command (session_id : Nat) (o : ProcOutcome) : InvocationResult :=
  match o with
  | .completed rc out err d =>
      { session_id := session_id
        success := rc == 0
        duration := d
        output := if out.isEmpty then none else some out
        error := if err.isEmpty then none else some err }
  | .exn msg d =>
      { session_id := session_id
        success := false
        duration := d
        output := none
        error := some msg }

/-- The offsets produced by Python `range(batch0, num_requests, num_concurrent)`
starting from offset `batch` (`test-concurrent.py` line 49).  Python raises
`ValueError` on step `0`, so the function is only meaningful for
`0 < num_concurrent`; the claims all assume a positive concurrency limit. -/
def batchOffsetsFrom (num_concurrent num_requests batch : Nat) : List Nat :=
  if _h : batch < num_requests ∧ 0 < num_concurrent then
    batch :: batchOffsetsFrom num_concurrent num_requests (batch + num_concurrent)
  else []
termination_by num_requests - batch
decreasing_by simp_wf; omega

/-- `range(0, num_requests, num_concurrent)` (`test-concurrent.py` line 49). -/
def batchOffsets (num_concurrent num_requests : Nat) : List Nat :=
  batchOffsetsFrom num_concurrent num_requests 0

/-- One batch of the scheduler (`test-concurrent.py` lines 51-52): the tasks
`[run_command(i + batch) for i in range(batch_size)]`, gathered in task
order (`asyncio.gather` preserves the order of its arguments). -/
def runBatch (env : Nat → ProcOutcome) (batch batch_size : Nat) :
    List InvocationResult :=
  (List.range batch_size).map (fun i => run_command (i + batch) (env (i + batch)))

/-- The per-batch result lists of the whole run, one entry per loop iteration
of `test-concurrent.py` lines 49-53, with
`batch_size = min(num_concurrent, num_requests - batch)`. -/
def batches (env : Nat → ProcOutcome) (num_concurrent num_requests : Nat) :
    List (List InvocationResult) :=
  (batchOffsets num_concurrent num_requests).map
    (fun batch => runBatch env batch (min num_concurrent (num_requests - batch)))

/-- The final `results` list of `run_concurrent_tests`
(`test-concurrent.py` lines 46-53): batches are awaited one after another and
each batch's results are appended in order (`results.extend(batch_results)`). -/
def run_concurrent_tests (env : Nat → ProcOutcome)
    (num_concurrent num_requests : Nat) : List InvocationResult :=
  (batches env num_concurrent num_requests).flatten

/-- The sequence of batch sizes `min(num_concurrent, num_requests - batch)`
taken by the scheduler loop (`test-concurrent.py` line 50). -/
def batchSizes (num_concurrent num_requests : Nat) : List Nat :=
  (batchOffsets num_concurrent num_requests).map
    (fun batch => min num_concurrent (num_requests - batch))

/-- The aggregate figures printed by `run_concurrent_tests`
(`test-concurrent.py` lines 58-81). -/
structure RunSummary where
  total_duration : ℚ
  successful_count : Nat
  failed_count : Nat
  avg_duration : ℚ
  min_duration : ℚ
  max_duration : ℚ
  throughput : ℚ
  error_samples : List InvocationResult
deriving DecidableEq

/-- Embedding of the analysis section of `run_concurrent_tests`
(`test-concurrent.py` lines 58-81).  With an empty result list the Python
code raises `ZeroDivisionError` at `sum(durations) / len(durations)`
(and `max` / `min` of an empty list would raise `ValueError`), so the
analysis is partial: `none` models the fault.  Python `min(durations)` /
`max(durations)` fold over the list starting from its first element. -/
def analyze (num_requests : Nat) (total_duration : ℚ) :
    List InvocationResult → Option RunSummary
  | [] => none
  | r :: rest =>
      some { total_duration := total_duration
             successful_count := ((r :: rest).filter (fun x => x.success)).length
             failed_count := ((r :: rest).filter (fun x => !x.success)).length
             avg_duration := ((r :: rest).map (fun x => x.duration)).sum /
               (((r :: rest).map (fun x => x.duration)).length : ℚ)
             min_duration := (rest.map (fun x => x.duration)).foldl min r.duration
             max_duration := (rest.map (fun x => x.duration)).foldl max r.duration
             throughput := (num_requests : ℚ) / total_duration
             error_samples := ((r :: rest).filter (fun x => !x.success)).take 3 }

/-- The fields of the summary the spec calls the aggregate statistics:
success count, failure count, average / min / max duration, throughput
(the bounded failure sample is a diagnostic display, not a statistic). -/
def aggregateStats (s : RunSummary) : Nat × Nat × ℚ × ℚ × ℚ × ℚ :=
  (s.successful_count, s.failed_count, s.avg_duration,
    s.min_duration, s.max_duration, s.throughput)

/-- A concrete environment for witnesses: every invocation exits 0 with some
stdout, empty stderr, in 1 second. -/
def envOk : Nat → ProcOutcome :=
  fun _ => .completed 0 "service is running" "" 1

/-- A concrete environment for witnesses: even-numbered sessions fail with a
non-zero exit and stderr text, odd-numbered sessions succeed. -/
def envMixed : Nat → ProcOutcome :=
  fun sid =>
    if sid % 2 == 0 then .completed 1 "" "connection refused" 2
    else .completed 0 "ok" "" 1

-- Unfolding lemmas for the scheduler loop.

theorem batchOffsetsFrom_pos (nc nr b : Nat) (h1 : b < nr) (h2 : 0 < nc) :
    batchOffsetsFrom nc nr b = b :: batchOffsetsFrom nc nr (b + nc) := by
  rw [batchOffsetsFrom]
  exact dif_pos ⟨h1, h2⟩

theorem batchOffsetsFrom_nil (nc nr b : Nat) (h : nr ≤ b) :
    batchOffsetsFrom nc nr b = [] := by
  rw [batchOffsetsFrom]
  exact dif_neg (by omega)

-- Structural lemmas about the loop, proved by induction on the remaining
-- request count.

theorem sizesFrom_sum (nc nr : Nat) (hc : 0 < nc) (b : Nat) :
    ((batchOffsetsFrom nc nr b).map (fun o => min nc (nr - o))).sum = nr - b := by
  have H : ∀ fuel b, nr - b ≤ fuel →
      ((batchOffsetsFrom nc nr b).map (fun o => min nc (nr - o))).sum = nr - b := by
    intro fuel
    induction fuel with
    | zero =>
        intro b hb
        rw [batchOffsetsFrom_nil nc nr b (by omega)]
        simp
        omega
    | succ n ih =>
        intro b hb
        by_cases hbr : b < nr
        · rw [batchOffsetsFrom_pos nc nr b hbr hc]
          simp only [List.map_cons, List.sum_cons]
          rw [ih (b + nc) (by omega)]
          omega
        · rw [batchOffsetsFrom_nil nc nr b (by omega)]
          simp
          omega
  exact H (nr - b) b le_rfl

theorem range_map_add (b m : Nat) :
    (List.range m).map (fun i => i + b) = List.range' b m := by
  rw [List.range'_eq_map_range]
  exact List.map_congr_left (fun i _ => Nat.add_comm i b)

theorem sessionIdsFrom_flatten (nc nr : Nat) (hc : 0 < nc) (b : Nat) :
    ((batchOffsetsFrom nc nr b).map
        (fun o => (List.range (min nc (nr - o))).map (fun i => i + o))).flatten
      = List.range' b (nr - b) := by
  have H : ∀ fuel b, nr - b ≤ fuel →
      ((batchOffsetsFrom nc nr b).map
          (fun o => (List.range (min nc (nr - o))).map (fun i => i + o))).flatten
        = List.range' b (nr - b) := by
    intro fuel
    induction fuel with
    | zero =>
        intro b hb
        rw [batchOffsetsFrom_nil nc nr b (by omega)]
        have hz : nr - b = 0 := by omega
        simp [hz]
    | succ n ih =>
        intro b hb
        by_cases hbr : b < nr
        · rw [batchOffsetsFrom_pos nc nr b hbr hc]
          simp only [List.map_cons, List.flatten_cons]
          rw [ih (b + nc) (by omega), range_map_add]
          by_cases hle : nc ≤ nr - b
          · have hmin : min nc (nr - b) = nc := by omega
            rw [hmin]
            have := List.range'_append_1 b nc (nr - (b + nc))
            rw [this]
            congr 1
            omega
          · have hmin : min nc (nr - b) = nr - b := by omega
            have hrest : nr - (b + nc) = 0 := by omega
            rw [hmin, hrest]
            simp
        · rw [batchOffsetsFrom_nil nc nr b (by omega)]
          have hz : nr - b = 0 := by omega
          simp [hz]
  exact H (nr - b) b le_rfl

theorem run_command_session (sid : Nat) (o : ProcOutcome) :
    (run_command sid o).session_id = sid := by
  cases o <;> rfl

theorem runBatch_sessionIds (env : Nat → ProcOutcome) (b s : Nat) :
    (runBatch env b s).map (fun r => r.session_id)
      = (List.range s).map (fun i => i + b) := by
  unfold runBatch
  rw [List.map_map]
  exact List.map_congr_left (fun i _ => run_command_session (i + b) (env (i + b)))

theorem run_sessionIds (env : Nat → ProcOutcome) (nc nr : Nat) (hc : 0 < nc) :
    (run_concurrent_tests env nc nr).map (fun r => r.session_id)
      = List.range nr := by
  unfold run_concurrent_tests batches batchOffsets
  rw [List.map_flatten, List.map_map]
  have hcomp : ((fun l => l.map (fun r => r.session_id)) ∘
      (fun batch => runBatch env batch (min nc (nr - batch))))
      = fun batch => (List.range (min nc (nr - batch))).map (fun i => i + batch) := by
    funext batch
    exact runBatch_sessionIds env batch (min nc (nr - batch))
  rw [hcomp, sessionIdsFrom_flatten nc nr hc 0]
  rw [List.range_eq_range']
  congr 1

theorem run_length (env : Nat → ProcOutcome) (nc nr : Nat) (hc : 0 < nc) :
    (run_concurrent_tests env nc nr).length = nr := by
  have h := congrArg List.length (run_sessionIds env nc nr hc)
  simpa using h

theorem sizesFrom_dropLast (nc nr : Nat) (hc : 0 < nc) (b : Nat) :
    ∀ s ∈ ((batchOffsetsFrom nc nr b).map (fun o => min nc (nr - o))).dropLast,
      s = nc := by
  have H : ∀ fuel b, nr - b ≤ fuel →
      ∀ s ∈ ((batchOffsetsFrom nc nr b).map (fun o => min nc (nr - o))).dropLast,
        s = nc := by
    intro fuel
    induction fuel with
    | zero =>
        intro b hb
        rw [batchOffsetsFrom_nil nc nr b (by omega)]
        simp
    | succ n ih =>
        intro b hb
        by_cases hbr : b < nr
        · rw [batchOffsetsFrom_pos nc nr b hbr hc]
          simp only [List.map_cons]
          by_cases hnext : b + nc < nr
          · have hne :
                ((batchOffsetsFrom nc nr (b + nc)).map (fun o => min nc (nr - o)))
                  ≠ [] := by
              rw [batchOffsetsFrom_pos nc nr (b + nc) hnext hc]
              simp
            rw [List.dropLast_cons_of_ne_nil hne]
            intro s hs
            rcases List.mem_cons.mp hs with h1 | h1
            · omega
            · exact ih (b + nc) (by omega) s h1
          · rw [batchOffsetsFrom_nil nc nr (b + nc) (by omega)]
            simp
        · rw [batchOffsetsFrom_nil nc nr b (by omega)]
          simp
  exact H (nr - b) b le_rfl

/-- C1: for every environment, every `total_requests ≥ 0` and every
`concurrency_limit ≥ 1`, the run produces exactly `total_requests`
InvocationResult values in the final `results` list: each invocation is
accounted for exactly once. -/
theorem C1_result_count (env : Nat → ProcOutcome)
    (num_concurrent num_requests : Nat) (hc : 1 ≤ num_concurrent) :
    (run_concurrent_tests env num_concurrent num_requests).length = num_requests :=
  run_length env num_concurrent num_requests hc

theorem C1_result_count_witness :
    (run_concurrent_tests envOk 3 7).length = 7 :=
  C1_result_count envOk 3 7 (by decide)

/-- C2 (code bug): with `total_requests = 0` the scheduler produces an empty
result list, and the analysis section then faults — Python raises
`ZeroDivisionError` at `sum(durations) / len(durations)`, modelled by
`analyze` returning `none`.  The code does not special-case the empty
collection, so no summary with zero counts is produced. -/
theorem C2_zero_requests_fault (env : Nat → ProcOutcome) (num_concurrent : Nat)
    (td : ℚ) :
    run_concurrent_tests env num_concurrent 0 = [] ∧
    analyze 0 td (run_concurrent_tests env num_concurrent 0) = none := by
  have h : run_concurrent_tests env num_concurrent 0 = [] := by
    unfold run_concurrent_tests batches batchOffsets
    rw [batchOffsetsFrom_nil num_concurrent 0 0 le_rfl]
    rfl
  exact ⟨h, by rw [h]; rfl⟩

/-- C3: every batch contains at most `concurrency_limit` invocations, and the
run is exactly the sequential concatenation of the batches — each batch is
started together and awaited as a whole (`asyncio.gather` barrier) before the
next batch exists, so at most `concurrency_limit` invocations are in flight
at any instant. -/
theorem C3_bounded_batches (env : Nat → ProcOutcome)
    (num_concurrent num_requests : Nat) (_hc : 1 ≤ num_concurrent) :
    (∀ b ∈ batches env num_concurrent num_requests,
      b.length ≤ num_concurrent) ∧
    run_concurrent_tests env num_concurrent num_requests
      = (batches env num_concurrent num_requests).flatten := by
  refine ⟨?_, rfl⟩
  intro b hb
  simp only [batches, List.mem_map] at hb
  obtain ⟨o, _, rfl⟩ := hb
  simp only [runBatch, List.length_map, List.length_range]
  exact Nat.min_le_left _ _

theorem C3_bounded_batches_witness :
    (∀ b ∈ batches envOk 3 8, b.length ≤ 3) ∧
    run_concurrent_tests envOk 3 8 = (batches envOk 3 8).flatten :=
  C3_bounded_batches envOk 3 8 (by decide)

/-- C4: the scheduler takes batches of size
`min(concurrency_limit, total_requests - offset)` from offset 0 until the
offset reaches `total_requests`; the batch sizes sum to `total_requests` and
every batch except possibly the last has size exactly `concurrency_limit`. -/
theorem C4_batch_sizes (num_concurrent num_requests : Nat)
    (hc : 1 ≤ num_concurrent) :
    (batchSizes num_concurrent num_requests).sum = num_requests ∧
    ∀ s ∈ (batchSizes num_concurrent num_requests).dropLast,
      s = num_concurrent := by
  constructor
  · have h := sizesFrom_sum num_concurrent num_requests hc 0
    simpa [batchSizes, batchOffsets] using h
  · exact sizesFrom_dropLast num_concurrent num_requests hc 0

theorem C4_batch_sizes_witness :
    (batchSizes 5 7).sum = 7 ∧ ∀ s ∈ (batchSizes 5 7).dropLast, s = 5 :=
  C4_batch_sizes 5 7 (by decide)

/-- C5: for every session id and every fault during an invocation (exception
while launching or communicating with the subprocess), `run_command` returns
— never raises — an InvocationResult with `success = false`, `output`
absent, `error` the fault's description, and the measured duration
populated. -/
theorem C5_fault_result (session_id : Nat) (msg : String) (d : ℚ) :
    (run_command session_id (.exn msg d)).success = false ∧
    (run_command session_id (.exn msg d)).output = none ∧
    (run_command session_id (.exn msg d)).error = some msg ∧
    (run_command session_id (.exn msg d)).duration = d ∧
    (run_command session_id (.exn msg d)).session_id = session_id :=
  ⟨rfl, rfl, rfl, rfl, rfl⟩

/-- C6 is false on the code: a process can exit 0 (so `success = true`) while
still writing to standard error; `run_command` then stores the stderr text in
`error` even though the invocation succeeded. -/
theorem C6_counterexample :
    (run_command 0 (.completed 0 "" "warning: slow" 1)).success = true ∧
    (run_command 0 (.completed 0 "" "warning: slow" 1)).error
      = some "warning: slow" := by
  exact ⟨by decide, by decide⟩

/-- C6 amended: `error` holds the captured standard-error whenever the process
produced any — regardless of exit status, so it can be populated even when
`success = true` — and holds the fault description on the exception path; it
is absent exactly when the process completed with empty standard error. -/
theorem C6_amended_error_field (session_id : Nat) (rc : Int) (out err : String)
    (d : ℚ) (msg : String) :
    (run_command session_id (.completed rc out err d)).error
      = (if err.isEmpty then none else some err) ∧
    (run_command session_id (.exn msg d)).error = some msg :=
  ⟨rfl, rfl⟩

/-- C7: each batch at `offset` carries session ids
`offset, offset+1, …, offset+batch_size-1` (the tasks are
`run_command(i + batch)` for `i in range(batch_size)`), and over the whole
run the session ids are `0, 1, …, total_requests-1` in order: globally
unique and monotonically increasing, never restarting per batch. -/
theorem C7_session_ids (env : Nat → ProcOutcome)
    (num_concurrent num_requests : Nat) (hc : 1 ≤ num_concurrent) :
    (run_concurrent_tests env num_concurrent num_requests).map
        (fun r => r.session_id) = List.range num_requests ∧
    ∀ b ∈ batchOffsets num_concurrent num_requests,
      (runBatch env b (min num_concurrent (num_requests - b))).map
          (fun r => r.session_id)
        = (List.range (min num_concurrent (num_requests - b))).map
            (fun i => i + b) :=
  ⟨run_sessionIds env num_concurrent num_requests hc,
   fun b _ => runBatch_sessionIds env b _⟩

theorem C7_session_ids_witness :
    (run_concurrent_tests envOk 3 8).map (fun r => r.session_id)
      = List.range 8 ∧
    ∀ b ∈ batchOffsets 3 8,
      (runBatch envOk b (min 3 (8 - b))).map (fun r => r.session_id)
        = (List.range (min 3 (8 - b))).map (fun i => i + b) :=
  C7_session_ids envOk 3 8 (by decide)

-- Helper lemmas about Python-style min / max over a non-empty list,
-- written as a left fold whose initial value is the first element.

theorem foldl_min_mem (d : ℚ) (ds : List ℚ) : ds.foldl min d ∈ d :: ds := by
  induction ds generalizing d with
  | nil => simp
  | cons a as ih =>
      simp only [List.foldl_cons]
      rcases List.mem_cons.mp (ih (min d a)) with h2 | h2
      · rw [h2]
        rcases min_choice d a with h1 | h1 <;> rw [h1] <;> simp
      · simp [List.mem_cons, h2]

theorem foldl_min_le (d : ℚ) (ds : List ℚ) :
    ∀ x ∈ d :: ds, ds.foldl min d ≤ x := by
  induction ds generalizing d with
  | nil =>
      intro x hx
      simp only [List.mem_cons, List.not_mem_nil, or_false] at hx
      simp [hx]
  | cons a as ih =>
      intro x hx
      simp only [List.foldl_cons]
      have hmins : as.foldl min (min d a) ≤ min d a :=
        ih (min d a) (min d a) (List.mem_cons_self _ _)
      rcases List.mem_cons.mp hx with h | h
      · rw [h]
        exact le_trans hmins (min_le_left d a)
      · rcases List.mem_cons.mp h with h2 | h2
        · rw [h2]
          exact le_trans hmins (min_le_right d a)
        · exact ih (min d a) x (List.mem_cons_of_mem _ h2)

theorem foldl_max_mem (d : ℚ) (ds : List ℚ) : ds.foldl max d ∈ d :: ds := by
  induction ds generalizing d with
  | nil => simp
  | cons a as ih =>
      simp only [List.foldl_cons]
      rcases List.mem_cons.mp (ih (max d a)) with h2 | h2
      · rw [h2]
        rcases max_choice d a with h1 | h1 <;> rw [h1] <;> simp
      · simp [List.mem_cons, h2]

theorem le_foldl_max (d : ℚ) (ds : List ℚ) :
    ∀ x ∈ d :: ds, x ≤ ds.foldl max d := by
  induction ds generalizing d with
  | nil =>
      intro x hx
      simp only [List.mem_cons, List.not_mem_nil, or_false] at hx
      simp [hx]
  | cons a as ih =>
      intro x hx
      simp only [List.foldl_cons]
      have hmaxs : max d a ≤ as.foldl max (max d a) :=
        ih (max d a) (max d a) (List.mem_cons_self _ _)
      rcases List.mem_cons.mp hx with h | h
      · rw [h]
        exact le_trans (le_max_left d a) hmaxs
      · rcases List.mem_cons.mp h with h2 | h2
        · rw [h2]
          exact le_trans (le_max_right d a) hmaxs
        · exact ih (max d a) x (List.mem_cons_of_mem _ h2)

theorem foldl_min_perm (d₁ d₂ : ℚ) (ds₁ ds₂ : List ℚ)
    (hp : (d₁ :: ds₁).Perm (d₂ :: ds₂)) :
    ds₁.foldl min d₁ = ds₂.foldl min d₂ :=
  le_antisymm
    (foldl_min_le d₁ ds₁ _ (hp.symm.subset (foldl_min_mem d₂ ds₂)))
    (foldl_min_le d₂ ds₂ _ (hp.subset (foldl_min_mem d₁ ds₁)))

theorem foldl_max_perm (d₁ d₂ : ℚ) (ds₁ ds₂ : List ℚ)
    (hp : (d₁ :: ds₁).Perm (d₂ :: ds₂)) :
    ds₁.foldl max d₁ = ds₂.foldl max d₂ :=
  le_antisymm
    (le_foldl_max d₂ ds₂ _ (hp.subset (foldl_max_mem d₁ ds₁)))
    (le_foldl_max d₁ ds₁ _ (hp.symm.subset (foldl_max_mem d₂ ds₂)))

theorem analyze_cons_bounds (n : Nat) (td : ℚ) (r : InvocationResult)
    (rest : List InvocationResult) :
    ∃ s, analyze n td (r :: rest) = some s ∧
      s.min_duration ≤ s.avg_duration ∧ s.avg_duration ≤ s.max_duration := by
  have hmem : ∀ x ∈ (r :: rest).map (fun y => y.duration),
      (rest.map (fun y => y.duration)).foldl min r.duration ≤ x := by
    intro x hx
    rw [List.map_cons] at hx
    exact foldl_min_le r.duration (rest.map (fun y => y.duration)) x hx
  have hmem2 : ∀ x ∈ (r :: rest).map (fun y => y.duration),
      x ≤ (rest.map (fun y => y.duration)).foldl max r.duration := by
    intro x hx
    rw [List.map_cons] at hx
    exact le_foldl_max r.duration (rest.map (fun y => y.duration)) x hx
  have hlenpos : (0 : ℚ) < (((r :: rest).map (fun y => y.duration)).length : ℚ) := by
    have h : 0 < ((r :: rest).map (fun y => y.duration)).length := by simp
    exact_mod_cast h
  have hlow := List.card_nsmul_le_sum ((r :: rest).map (fun y => y.duration)) _ hmem
  have hhigh := List.sum_le_card_nsmul ((r :: rest).map (fun y => y.duration)) _ hmem2
  rw [nsmul_eq_mul] at hlow hhigh
  refine ⟨_, rfl, ?_, ?_⟩
  · exact (le_div_iff₀ hlenpos).mpr (by rw [mul_comm]; exact hlow)
  · exact (div_le_iff₀ hlenpos).mpr (by rw [mul_comm]; exact hhigh)

/-- C8: for every run with `total_requests > 0` (and `concurrency_limit ≥ 1`),
the analysis succeeds and its duration statistics over all results satisfy
`min_duration ≤ avg_duration ≤ max_duration`, where the average is the sum of
the durations divided by their count and min/max are the least and greatest
durations. -/
theorem C8_min_avg_max (env : Nat → ProcOutcome)
    (num_concurrent num_requests : Nat) (td : ℚ)
    (hc : 1 ≤ num_concurrent) (hr : 0 < num_requests) :
    ∃ s, analyze num_requests td
        (run_concurrent_tests env num_concurrent num_requests) = some s ∧
      s.min_duration ≤ s.avg_duration ∧ s.avg_duration ≤ s.max_duration := by
  obtain ⟨r, rest, hEq⟩ :
      ∃ r rest, run_concurrent_tests env num_concurrent num_requests
        = r :: rest := by
    cases hrun : run_concurrent_tests env num_concurrent num_requests with
    | nil =>
        have hl := run_length env num_concurrent num_requests hc
        rw [hrun] at hl
        simp at hl
        omega
    | cons r rest => exact ⟨r, rest, rfl⟩
  rw [hEq]
  exact analyze_cons_bounds num_requests td r rest

theorem C8_min_avg_max_witness :
    ∃ s, analyze 3 1 (run_concurrent_tests envMixed 2 3) = some s ∧
      s.min_duration ≤ s.avg_duration ∧ s.avg_duration ≤ s.max_duration :=
  C8_min_avg_max envMixed 2 3 1 (by decide) (by decide)

/-- C9: for the same per-invocation outcomes observed in any two orders that
are permutations of each other — in particular, any reordering of each
batch's results by completion order — the aggregate statistics (success
count, failure count, average / min / max duration, throughput) computed by
the analysis are identical. -/
theorem C9_stats_perm_invariant (n : Nat) (td : ℚ)
    (rs₁ rs₂ : List InvocationResult) (hp : rs₁.Perm rs₂) :
    (analyze n td rs₁).map aggregateStats
      = (analyze n td rs₂).map aggregateStats := by
  cases rs₁ with
  | nil =>
      rw [← hp.nil_eq]
  | cons r₁ rest₁ =>
      cases rs₂ with
      | nil =>
          have := hp.length_eq
          simp at this
      | cons r₂ rest₂ =>
          have hdur : (r₁.duration :: rest₁.map (fun x => x.duration)).Perm
              (r₂.duration :: rest₂.map (fun x => x.duration)) := by
            have h := hp.map (fun x => x.duration)
            simpa using h
          have e1 : ((r₁ :: rest₁).filter (fun x => x.success)).length
              = ((r₂ :: rest₂).filter (fun x => x.success)).length :=
            (hp.filter (fun x => x.success)).length_eq
          have e2 : ((r₁ :: rest₁).filter (fun x => !x.success)).length
              = ((r₂ :: rest₂).filter (fun x => !x.success)).length :=
            (hp.filter (fun x => !x.success)).length_eq
          have e3 : ((r₁ :: rest₁).map (fun x => x.duration)).sum
              = ((r₂ :: rest₂).map (fun x => x.duration)).sum :=
            (hp.map (fun x => x.duration)).sum_eq
          have e4 : ((r₁ :: rest₁).map (fun x => x.duration)).length
              = ((r₂ :: rest₂).map (fun x => x.duration)).length :=
            (hp.map (fun x => x.duration)).length_eq
          have e5 : (rest₁.map (fun x => x.duration)).foldl min r₁.duration
              = (rest₂.map (fun x => x.duration)).foldl min r₂.duration :=
            foldl_min_perm r₁.duration r₂.duration
              (rest₁.map (fun x => x.duration))
              (rest₂.map (fun x => x.duration)) hdur
          have e6 : (rest₁.map (fun x => x.duration)).foldl max r₁.duration
              = (rest₂.map (fun x => x.duration)).foldl max r₂.duration :=
            foldl_max_perm r₁.duration r₂.duration
              (rest₁.map (fun x => x.duration))
              (rest₂.map (fun x => x.duration)) hdur
          simp only [analyze, Option.map_some', aggregateStats]
          rw [e1, e2, e3, e4, e5, e6]

theorem C9_stats_perm_invariant_witness :
    (analyze 2 1 [run_command 1 (envMixed 1),
        run_command 0 (envMixed 0)]).map aggregateStats
      = (analyze 2 1 [run_command 0 (envMixed 0),
          run_command 1 (envMixed 1)]).map aggregateStats :=
  C9_stats_perm_invariant 2 1 _ _ (List.Perm.swap _ _ _)

/-- C10 (implicit): the final result list is sorted by `session_id` in
strictly increasing order — within each batch results are appended in launch
order (`asyncio.gather` returns results in task order, not completion
order), and batches are appended in batch order — so the first-3 failure
sample consists of the failed invocations with the smallest session ids:
every sampled failure precedes every unsampled failure in session id. -/
theorem C10_sorted_and_sample (env : Nat → ProcOutcome)
    (num_concurrent num_requests : Nat) (hc : 1 ≤ num_concurrent) :
    ((run_concurrent_tests env num_concurrent num_requests).map
        (fun r => r.session_id)).Pairwise (· < ·) ∧
    ∀ r ∈ ((run_concurrent_tests env num_concurrent num_requests).filter
        (fun x => !x.success)).take 3,
      ∀ q ∈ ((run_concurrent_tests env num_concurrent num_requests).filter
          (fun x => !x.success)).drop 3,
        r.session_id < q.session_id := by
  have hmap := run_sessionIds env num_concurrent num_requests hc
  have hpw : ((run_concurrent_tests env num_concurrent num_requests).map
      (fun r => r.session_id)).Pairwise (· < ·) := by
    rw [hmap]
    exact List.pairwise_lt_range num_requests
  refine ⟨hpw, ?_⟩
  have hpw2 : (run_concurrent_tests env num_concurrent num_requests).Pairwise
      (fun a b => a.session_id < b.session_id) := List.pairwise_map.mp hpw
  have hf : ((run_concurrent_tests env num_concurrent num_requests).filter
      (fun x => !x.success)).Pairwise
      (fun a b => a.session_id < b.session_id) :=
    List.Pairwise.sublist (List.filter_sublist _) hpw2
  have hsplit : ((((run_concurrent_tests env num_concurrent num_requests).filter
        (fun x => !x.success)).take 3) ++
      (((run_concurrent_tests env num_concurrent num_requests).filter
        (fun x => !x.success)).drop 3)).Pairwise
      (fun a b => a.session_id < b.session_id) := by
    rw [List.take_append_drop]
    exact hf
  exact fun r hr q hq => (List.pairwise_append.mp hsplit).2.2 r hr q hq

theorem C10_sorted_and_sample_witness :
    ((run_concurrent_tests envMixed 2 6).map
        (fun r => r.session_id)).Pairwise (· < ·) ∧
    ∀ r ∈ ((run_concurrent_tests envMixed 2 6).filter
        (fun x => !x.success)).take 3,
      ∀ q ∈ ((run_concurrent_tests envMixed 2 6).filter
          (fun x => !x.success)).drop 3,
        r.session_id < q.session_id :=
  C10_sorted_and_sample envMixed 2 6 (by decide)
